import Mathlib

/-!
Verification development for the citation cross-linking engine of
`app.py` (function `process_xhtml_files`).

Strings are modelled as `List Char`; regular-expression character
classes are modelled over ASCII, which covers the inputs all the
properties below are about.  Structured-markup parsing (BeautifulSoup)
is abstracted at the boundary the program itself uses: a bibliography
document is the list of its identified list items (`find_all('li',
id=True)` with their flattened text), and a chapter body is the list of
its text nodes (`body.find_all(string=True)`) together with the names
of their enclosing elements.
-/

namespace BibLinks

/-- ASCII decimal digit, the regex class `\d`. -/
def isDigit (c : Char) : Bool := '0' ≤ c && c ≤ '9'

/-- ASCII lowercase letter, the regex class `[a-z]`. -/
def isLowerAlpha (c : Char) : Bool := 'a' ≤ c && c ≤ 'z'

/-- ASCII uppercase letter, the regex class `[A-Z]`. -/
def isUpperAlpha (c : Char) : Bool := 'A' ≤ c && c ≤ 'Z'

/-- ASCII letter, the regex class `[a-zA-Z]`. -/
def isAsciiAlpha (c : Char) : Bool := isLowerAlpha c || isUpperAlpha c

/-- Whitespace: the regex class `\s`, which is also the character set
Python's `str.strip()` removes. -/
def isSpace (c : Char) : Bool :=
  c = ' ' || c = '\t' || c = '\n' || c = '\r' || c = Char.ofNat 11 || c = Char.ofNat 12

/-- Word character, the regex class `\w` (ASCII): letter, digit or
underscore. -/
def isWordChar (c : Char) : Bool := isAsciiAlpha c || isDigit c || c = '_'

/-- ASCII lowercasing of one character, as done by Python `str.lower()`. -/
def lowerChar (c : Char) : Char :=
  if isUpperAlpha c then Char.ofNat (c.toNat + 32) else c

/-- `s.lower()` over ASCII. -/
def lowerStr (s : List Char) : List Char := s.map lowerChar

/-- `re.sub(r'\s', '', s)`: removal of every whitespace character. -/
def stripWs (s : List Char) : List Char := s.filter (fun c => !isSpace c)

/-- Python `str.strip()`: drop whitespace from both ends. -/
def pyStrip (s : List Char) : List Char :=
  ((s.dropWhile isSpace).reverse.dropWhile isSpace).reverse

/-- Whether a word boundary `\b` sits right before `s` when the previous
character is a word character, i.e. whether `s` starts with a non-word
character (or is the string end). -/
def wordBreakAt (s : List Char) : Bool :=
  match s with
  | [] => true
  | c :: _ => !isWordChar c

/-- The regex fragment `(\d{4}\s*[a-z]?)\b` attempted at the start of
`s`: four digits, a greedy run of whitespace, an optional lowercase
letter, then a word boundary, with the backtracking the trailing
boundary forces (so `1999  ab` captures `1999  `, `1999 .` captures
`1999`, and `1999ab` fails outright).  Returns the captured group and
the remainder of the string after the match. -/
def matchYearAt (s : List Char) : Option (List Char × List Char) :=
  match s with
  | d1 :: d2 :: d3 :: d4 :: rest =>
    if isDigit d1 && isDigit d2 && isDigit d3 && isDigit d4 then
      let ws := rest.takeWhile isSpace
      let rest2 := rest.dropWhile isSpace
      match rest2 with
      | [] => some ([d1, d2, d3, d4], rest)
      | c :: rest3 =>
        if isLowerAlpha c then
          if wordBreakAt rest3 then some ([d1, d2, d3, d4] ++ ws ++ [c], rest3)
          else if ws = [] then none
          else some ([d1, d2, d3, d4] ++ ws, rest2)
        else if isWordChar c then
          if ws = [] then none
          else some ([d1, d2, d3, d4] ++ ws, rest2)
        else some ([d1, d2, d3, d4], rest)
    else none
  | _ => none

/-- One position of `re.search(r'^(.*?)\b(\d{4}\s*[a-z]?)\b', s)`:
`prevc` is the character just before the current position (`none` at the
string start), `acc` the reversed prefix consumed so far by the
non-greedy `(.*?)`, which cannot cross a newline.  The word boundary
before the year group holds iff the previous character is absent or not
a word character, the year group starting with a digit. -/
def bibSearchAux : Nat → Option Char → List Char → List Char →
    Option (List Char × List Char)
  | 0, _, _, _ => none
  | fuel + 1, prevc, acc, s =>
    let bOk := match prevc with
      | none => true
      | some c => !isWordChar c
    match (if bOk then matchYearAt s else none) with
    | some (y, _) => some (acc.reverse, y)
    | none =>
      match s with
      | [] => none
      | c :: rest => if c = '\n' then none else bibSearchAux fuel (some c) (c :: acc) rest

/-- `citation_pattern.search(item_text)` of line 43: the author part
(group 1) and the year (group 2), or `none` when the pattern does not
match. -/
def bibSearch (s : List Char) : Option (List Char × List Char) :=
  bibSearchAux (s.length + 1) none [] s

/-- Python `s.split(',')[0]`: the part before the first comma. -/
def beforeComma (s : List Char) : List Char := s.takeWhile (fun c => c ≠ ',')

/-- Python `s.split()[0]` as an `Option`: the first whitespace-separated
token, `none` (an `IndexError` in the source) when there is none. -/
def firstToken (s : List Char) : Option (List Char) :=
  match s.dropWhile isSpace with
  | [] => none
  | c :: rest => some (c :: rest.takeWhile (fun x => !isSpace x))

/-- Lines 42-56 of `app.py`: the normalized key computed for one
bibliography item's flattened text, `none` when the entry is skipped
(no pattern match, empty author part, or unsplittable author token). -/
def bibEntryKey (itemText : List Char) : Option (List Char) :=
  match bibSearch (pyStrip itemText) with
  | none => none
  | some (authorPart, year) =>
    if pyStrip authorPart = [] then none
    else
      match firstToken (beforeComma (pyStrip authorPart)) with
      | none => none
      | some surname => some (lowerStr surname ++ stripWs year)

/-- One bibliography target: the `li` element's id and the bibliography
file's name, as stored in `bib_data` (line 54). -/
structure BibEntry where
  id : List Char
  filename : List Char
deriving DecidableEq, Repr

/-- `bib_data`: a Python dict from normalized key to a list of entries,
modelled as an association list in key insertion order. -/
abbrev Index := List (List Char × List BibEntry)

/-- Dict lookup: `bib_data[k]` guarded by `k in bib_data`. -/
def lookupIdx (idx : Index) (k : List Char) : Option (List BibEntry) :=
  match idx with
  | [] => none
  | (k', es) :: rest => if k' = k then some es else lookupIdx rest k

/-- Lines 52-54: create the key's list if absent (at the end, in dict
insertion order) and append the entry to it. -/
def appendEntry (idx : Index) (k : List Char) (e : BibEntry) : Index :=
  match idx with
  | [] => [(k, [e])]
  | (k', es) :: rest =>
    if k' = k then (k', es ++ [e]) :: rest else (k', es) :: appendEntry rest k e

/-- One identified list item of the bibliography document: its id
attribute and its flattened text (`item.get_text()`). -/
structure BibItem where
  id : List Char
  text : List Char
deriving DecidableEq, Repr

/-- One iteration of the loop of lines 40-56: key the item and record
it, or skip it. -/
def indexStep (filename : List Char) (idx : Index) (it : BibItem) : Index :=
  match bibEntryKey it.text with
  | none => idx
  | some k => appendEntry idx k ⟨it.id, filename⟩

/-- Lines 37-56: the bibliography index built over all identified list
items, in document order. -/
def buildIndex (filename : List Char) (items : List BibItem) : Index :=
  items.foldl (indexStep filename) []

/-- The entries the indexer records for key `k`, in document order. -/
def entriesFor (f k : List Char) (items : List BibItem) : List BibEntry :=
  items.filterMap (fun it =>
    if bibEntryKey it.text = some k then some ⟨it.id, f⟩ else none)

/-- The first bibliography item, in document order, whose normalized
key is `k`. -/
def firstItemFor (k : List Char) (items : List BibItem) : Option BibItem :=
  items.find? (fun it => decide (bibEntryKey it.text = some k))

/-- One in-text citation match of the scanner pattern: the author word
(group 1), the whitespace between author and year, and the year text
(group 2).  `group(0)` is `author ++ sep ++ year`. -/
structure Cite where
  author : List Char
  sep : List Char
  year : List Char
deriving DecidableEq, Repr

/-- The whole matched span, `match.group(0)`. -/
def citeSpan (m : Cite) : List Char := m.author ++ m.sep ++ m.year

/-- Line 97: `author_in_text.lower() + re.sub(r'\s', '', year_in_text)`. -/
def citeKey (m : Cite) : List Char := lowerStr m.author ++ stripWs m.year

/-- Character allowed after the leading capital of the author word: the
regex class of letters and the apostrophe. -/
def isAuthorChar (c : Char) : Bool := isAsciiAlpha c || c = Char.ofNat 39

/-- The pattern of line 78 attempted at the start of `s`: a word
boundary (`prevWord` tells whether the character just before `s` is a
word character), a capital letter, a nonempty run of letters or
apostrophes, a nonempty run of whitespace, then the year group.
Returns the match and the remainder. -/
def matchCiteAt (prevWord : Bool) (s : List Char) : Option (Cite × List Char) :=
  if prevWord then none
  else
    match s with
    | [] => none
    | c :: rest =>
      if isUpperAlpha c then
        let tl := rest.takeWhile isAuthorChar
        if tl = [] then none
        else
          let rest1 := rest.dropWhile isAuthorChar
          let sep := rest1.takeWhile isSpace
          if sep = [] then none
          else
            match matchYearAt (rest1.dropWhile isSpace) with
            | some (y, r) => some (⟨c :: tl, sep, y⟩, r)
            | none => none
      else none

/-- `search_pattern.finditer` over one text node (line 86), producing
the alternating gap texts and matches plus the trailing gap, exactly the
slicing the rewriting loop of lines 90-111 performs.  Positions are
tried left to right; after a match, scanning resumes at its end. -/
def scanAux : Nat → Bool → List Char → List Char →
    List (List Char × Cite) × List Char
  | 0, _, gap, s => ([], gap.reverse ++ s)
  | fuel + 1, prevWord, gap, s =>
    match matchCiteAt prevWord s with
    | some (m, r) =>
      let next := scanAux fuel (isWordChar (m.year.getLastD ' ')) [] r
      ((gap.reverse, m) :: next.1, next.2)
    | none =>
      match s with
      | [] => ([], gap.reverse)
      | c :: rest => scanAux fuel (isWordChar c) (c :: gap) rest

/-- The scanner: gaps-and-matches decomposition of one text node. -/
def scanText (s : List Char) : List (List Char × Cite) × List Char :=
  scanAux (s.length + 1) false [] s

/-- A piece of the rewritten node: verbatim text, or a generated
hyperlink (`<a class="xref" href=...>`) with its href and visible text. -/
inductive Fragment where
  | text : List Char → Fragment
  | link : List Char → List Char → Fragment
deriving DecidableEq, Repr

/-- Lines 96-107: handling of one scanner match.  On an index hit the
code emits the author word plus a single space, then a hyperlink whose
href is `filename#id` of the first entry recorded for the key and whose
visible text is the matched year; on a miss it emits the whole matched
span unchanged.  (`some []` never arises: `buildIndex` stores only
nonempty sequences.) -/
def emitCite (idx : Index) (m : Cite) : List Fragment :=
  match lookupIdx idx (citeKey m) with
  | some (e :: _) =>
    [Fragment.text (m.author ++ [' ']), Fragment.link (e.filename ++ '#' :: e.id) m.year]
  | some [] => [Fragment.text (citeSpan m)]
  | none => [Fragment.text (citeSpan m)]

/-- One text node of the chapter body: the names of its enclosing
elements, innermost first, and its text. -/
structure TextNode where
  ancestors : List String
  text : List Char
deriving DecidableEq, Repr

/-- Line 82: `text_element.parent.name in ['a', 'script', 'style']` —
only the immediate parent element is consulted. -/
def skippedParent (node : TextNode) : Bool :=
  match node.ancestors with
  | p :: _ => p = "a" || p = "script" || p = "style"
  | [] => false

/-- Lines 81-112: processing of one chapter text node.  A node whose
immediate parent is a hyperlink, script or style element is left
unchanged; otherwise the scanner's gaps are emitted verbatim (nonempty
ones, as the `start > last_index` and trailing-slice guards do) with
each match handled by `emitCite`. -/
def processNode (idx : Index) (node : TextNode) : List Fragment :=
  if skippedParent node then [Fragment.text node.text]
  else
    let sc := scanText node.text
    (sc.1.map (fun gm =>
        (if gm.1 = [] then [] else [Fragment.text gm.1]) ++ emitCite idx gm.2)).flatten
      ++ (if sc.2 = [] then [] else [Fragment.text sc.2])

/-- The visible text of a fragment sequence: plain text contributes
itself, a link contributes its visible text. -/
def textOf (fs : List Fragment) : List Char :=
  (fs.map (fun f => match f with
    | Fragment.text s => s
    | Fragment.link _ v => v)).flatten

/-- The run-level contract of `process_xhtml_files` over the parsed
inputs: a bibliography yielding an empty index aborts the run before the
chapter is examined (lines 58-60); a chapter without a body aborts it
(lines 75-76); otherwise every text node is processed and the rewritten
node sequence is produced. -/
def process (bibFilename : List Char) (items : List BibItem)
    (chapter : Option (List TextNode)) : Option (List (List Fragment)) :=
  if buildIndex bibFilename items = [] then none
  else
    match chapter with
    | none => none
    | some nodes => some (nodes.map (processNode (buildIndex bibFilename items)))

/-- The entity regex `(&#?\w+;)` of line 67 attempted at the start of
`s`: an ampersand, an optional hash, a nonempty run of word characters,
then a mandatory semicolon.  Returns the matched text and the remainder
of the string. -/
def entityAt (s : List Char) : Option (List Char × List Char) :=
  match s with
  | '&' :: rest =>
    let hash : List Char := if rest.head? = some '#' then ['#'] else []
    let body : List Char := if rest.head? = some '#' then rest.tail else rest
    let w := body.takeWhile isWordChar
    if w = [] then none
    else
      match body.dropWhile isWordChar with
      | ';' :: r2 => some ('&' :: (hash ++ w ++ [';']), r2)
      | _ => none
  | _ => none

/-- Line 69: the placeholder `__ENTITY_<hex>__` built from the n-th
generated hex string (`uuid.uuid4().hex`, modelled as an arbitrary
generator  `hex : Nat → List Char`). -/
def placeholder (hex : Nat → List Char) (n : Nat) : List Char :=
  "__ENTITY_".toList ++ hex n ++ "__".toList

/-- Lines 66-72: `entity_pattern.sub(protect_entity, content)` together
with the `entity_map` it fills, scanning left to right for leftmost
non-overlapping entity matches; `n` numbers the generated placeholders
in order of creation (dict insertion order of `entity_map`). -/
def protectAux (hex : Nat → List Char) : Nat → Nat → List Char →
    List Char × List (List Char × List Char)
  | 0, _, s => (s, [])
  | fuel + 1, n, s =>
    match entityAt s with
    | some (e, r) =>
      let next := protectAux hex fuel (n + 1) r
      (placeholder hex n ++ next.1, (placeholder hex n, e) :: next.2)
    | none =>
      match s with
      | [] => ([], [])
      | c :: rest =>
        let next := protectAux hex fuel n rest
        (c :: next.1, next.2)

/-- The Entity Guard's `protect`: the protected text and the
placeholder map, in insertion order. -/
def protect (hex : Nat → List Char) (s : List Char) :
    List Char × List (List Char × List Char) :=
  protectAux hex (s.length + 1) 0 s

/-- Python `s.replace(p, r)`: replace every leftmost non-overlapping
occurrence of `p`, resuming after the inserted replacement.  (`p` is
never empty at the call sites; the fuel only bounds the recursion.) -/
def replaceAllAux (p r : List Char) : Nat → List Char → List Char
  | 0, s => s
  | fuel + 1, s =>
    match s with
    | [] => []
    | c :: rest =>
      if p.isPrefixOf s then r ++ replaceAllAux p r fuel (s.drop p.length)
      else c :: replaceAllAux p r fuel rest

/-- Python `s.replace(p, r)` at adequate fuel. -/
def replaceAll (p r s : List Char) : List Char :=
  replaceAllAux p r (s.length + 1) s

/-- Lines 120-122: the Entity Guard's `restore` — substitute every
recorded placeholder back to its original entity text, sequentially in
map insertion order. -/
def restore (m : List (List Char × List Char)) (s : List Char) : List Char :=
  m.foldl (fun acc pe => replaceAll pe.1 pe.2 acc) s

/-- Alternation of gap texts with replaced pieces:
`interleave [t0, t1, ..., tn] [x1, ..., xn]` is
`t0 ++ x1 ++ t1 ++ ... ++ xn ++ tn`. -/
def interleave : List (List Char) → List (List Char) → List Char
  | [], _ => []
  | t :: ts, [] => t ++ interleave ts []
  | t :: ts, x :: xs => t ++ x ++ interleave ts xs

/-- The shape of a string matched by the entity regex `&#?\w+;`. -/
def IsEntity (e : List Char) : Prop :=
  ∃ hash w, (hash = [] ∨ hash = ['#']) ∧ w ≠ [] ∧ (∀ c ∈ w, isWordChar c = true) ∧
    e = '&' :: (hash ++ w ++ [';'])

/-- Lowercase hexadecimal digit: the alphabet of `uuid.uuid4().hex`. -/
def isHexLower (c : Char) : Bool := isDigit c || ('a' ≤ c && c ≤ 'f')

/-- The fixed leading part of every placeholder token. -/
def entLead : List Char := "__ENTITY_".toList

/-- The fixed trailing part of every placeholder token. -/
def undTail : List Char := "__".toList

/-- The hex core a well-shaped placeholder token carries between its
fixed affixes. -/
def coreOf (p : List Char) : List Char := (p.drop entLead.length).take 32

/-- The string `g` does not occur as a contiguous substring of `s`. -/
def NoOcc (g s : List Char) : Prop := ¬ ∃ a b, s = a ++ g ++ b

/-- The text a scan result decomposes: gaps and matched spans in
order, then the trailing gap. -/
def glueScan (sc : List (List Char × Cite) × List Char) : List Char :=
  (sc.1.map (fun gm => gm.1 ++ citeSpan gm.2)).flatten ++ sc.2

/-- A sample high-entropy-style generator standing in for
`uuid.uuid4().hex` in concrete runs: 28 zeros followed by the four hex
digits of `n`, lowercase, length 32, injective below `16^4`. -/
def hexDigitChar (k : Nat) : Char :=
  if k < 10 then Char.ofNat (48 + k) else Char.ofNat (87 + k)

/-- See `hexDigitChar`. -/
def sampleHex (n : Nat) : List Char :=
  List.replicate 28 '0' ++
    [hexDigitChar (n / 4096 % 16), hexDigitChar (n / 256 % 16),
     hexDigitChar (n / 16 % 16), hexDigitChar (n % 16)]

end BibLinks

namespace BibLinks

/-- C1: the key the Bibliography Indexer derives from the entry text
`Smith, J. (1999).` (lowercase first author token before the comma plus
the whitespace-stripped year) and the key the Citation Scanner derives
from the in-text span `Smith 1999` are both `smith1999`, and processing
a text node holding that span against a bibliography holding that entry
produces a hyperlink to it. -/
theorem c1_key_normalization_symmetry :
    bibEntryKey "Smith, J. (1999).".toList = some "smith1999".toList ∧
    (scanText "Smith 1999".toList).1.map (fun gm => citeKey gm.2) = ["smith1999".toList] ∧
    processNode (buildIndex "bib.xhtml".toList [⟨"r1".toList, "Smith, J. (1999).".toList⟩])
        ⟨["p"], "Smith 1999".toList⟩ =
      [Fragment.text "Smith ".toList,
       Fragment.link "bib.xhtml#r1".toList "1999".toList] := by
  decide

/-- C4: a bibliography from which the indexer extracts zero keys makes
the whole run fail with no output, whatever the chapter holds — the
chapter is never examined. -/
theorem c4_all_or_nothing (f : List Char) (items : List BibItem)
    (chapter : Option (List TextNode)) (h : buildIndex f items = []) :
    process f items chapter = none := by
  unfold process
  simp [h]

/-- C4 witness: a bibliography whose only item has no year yields an
empty index, and the run on a concrete chapter fails. -/
theorem c4_all_or_nothing_witness :
    buildIndex "bib.xhtml".toList [⟨"b1".toList, "no year here".toList⟩] = [] ∧
    process "bib.xhtml".toList [⟨"b1".toList, "no year here".toList⟩]
      (some [⟨["p"], "Smith 1999".toList⟩]) = none :=
  ⟨by decide, c4_all_or_nothing _ _ _ (by decide)⟩

/-- C7: `Smith 1999a` and `Smith 1999` normalize to the distinct keys
`smith1999a` and `smith1999`, and neither citation is linked against a
bibliography entry keyed by the other. -/
theorem c7_year_letter_distinct :
    (scanText "Smith 1999a".toList).1.map (fun gm => citeKey gm.2) = ["smith1999a".toList] ∧
    (scanText "Smith 1999".toList).1.map (fun gm => citeKey gm.2) = ["smith1999".toList] ∧
    "smith1999a".toList ≠ "smith1999".toList ∧
    bibEntryKey "Smith, J. (1999).".toList = some "smith1999".toList ∧
    bibEntryKey "Smith, J. (1999a).".toList = some "smith1999a".toList ∧
    processNode (buildIndex "bib.xhtml".toList [⟨"b1".toList, "Smith, J. (1999).".toList⟩])
        ⟨["p"], "Smith 1999a".toList⟩ = [Fragment.text "Smith 1999a".toList] ∧
    processNode (buildIndex "bib.xhtml".toList [⟨"b2".toList, "Smith, J. (1999a).".toList⟩])
        ⟨["p"], "Smith 1999".toList⟩ = [Fragment.text "Smith 1999".toList] := by
  decide

/-- C8: one well-formed entry plus one whose author part is empty
yields an index holding exactly the key `smith1999` for the well-formed
entry, and the run still succeeds on every chapter body. -/
theorem c8_skip_not_fail :
    buildIndex "bib.xhtml".toList
        [⟨"b1".toList, "Smith, J. (1999).".toList⟩, ⟨"b2".toList, "1999.".toList⟩] =
      [("smith1999".toList, [⟨"b1".toList, "bib.xhtml".toList⟩])] ∧
    ∀ nodes : List TextNode,
      (process "bib.xhtml".toList
        [⟨"b1".toList, "Smith, J. (1999).".toList⟩, ⟨"b2".toList, "1999.".toList⟩]
        (some nodes)).isSome = true := by
  have h : buildIndex "bib.xhtml".toList
      [⟨"b1".toList, "Smith, J. (1999).".toList⟩, ⟨"b2".toList, "1999.".toList⟩] =
      [("smith1999".toList, [⟨"b1".toList, "bib.xhtml".toList⟩])] := by decide
  refine ⟨h, fun nodes => ?_⟩
  unfold process
  rw [h]
  simp

/-- C10: the citation `Smith 1999 a` produces a hyperlink whose visible
text is the matched year text `1999 a` verbatim, internal whitespace
included, even though the key that found the entry is the compacted
`smith1999a`. -/
theorem c10_link_text_verbatim :
    (scanText "Smith 1999 a".toList).1.map (fun gm => (gm.2.year, citeKey gm.2)) =
      [("1999 a".toList, "smith1999a".toList)] ∧
    processNode (buildIndex "bib.xhtml".toList [⟨"b9".toList, "Smith, B. (1999a).".toList⟩])
        ⟨["p"], "Smith 1999 a".toList⟩ =
      [Fragment.text "Smith ".toList,
       Fragment.link "bib.xhtml#b9".toList "1999 a".toList] := by
  decide

/-- C5 counterexample: with `Smith  1999` (two spaces) in the chapter
and `smith1999` in the index, the rewriter emits the author plus a
single space before the link, so the concatenated fragment text drops
one space and differs from the original node text. -/
theorem c5_counterexample :
    textOf (processNode
        (buildIndex "bib.xhtml".toList [⟨"b1".toList, "Smith, J. (1999).".toList⟩])
        ⟨["p"], "Smith  1999".toList⟩) = "Smith 1999".toList ∧
    "Smith 1999".toList ≠ "Smith  1999".toList := by
  decide

/-- C6 counterexample: a text node nested at depth two inside a
hyperlink (parent `span`, grandparent `a`) is rescanned and rewritten —
the code consults only the immediate parent's name. -/
theorem c6_counterexample :
    processNode (buildIndex "bib.xhtml".toList [⟨"b1".toList, "Smith, J. (1999).".toList⟩])
        ⟨["span", "a"], "Smith 1999".toList⟩ =
      [Fragment.text "Smith ".toList, Fragment.link "bib.xhtml#b1".toList "1999".toList] ∧
    [Fragment.text "Smith ".toList, Fragment.link "bib.xhtml#b1".toList "1999".toList] ≠
      [Fragment.text "Smith 1999".toList] := by
  decide

/-- C6 amended: a text node whose immediate parent element is a
hyperlink, script or style element is left completely unchanged,
whatever its text and the index. -/
theorem c6_amended (idx : Index) (p : String) (anc : List String) (t : List Char)
    (h : p = "a" ∨ p = "script" ∨ p = "style") :
    processNode idx ⟨p :: anc, t⟩ = [Fragment.text t] := by
  unfold processNode skippedParent
  rcases h with h | h | h <;> simp [h]

/-- C6 amended witness: a node directly inside a hyperlink whose text
matches the citation pattern is untouched even when its key is in the
index. -/
theorem c6_amended_witness :
    processNode (buildIndex "bib.xhtml".toList [⟨"b1".toList, "Smith, J. (1999).".toList⟩])
      ⟨["a"], "Smith 1999".toList⟩ = [Fragment.text "Smith 1999".toList] :=
  c6_amended _ "a" [] _ (Or.inl rfl)

/-- C9 counterexample: the entity regex requires the trailing
semicolon, so `protect` leaves the semicolon-less occurrence `&amp`
untouched and records nothing. -/
theorem c9_counterexample :
    protect sampleHex "&amp".toList = ("&amp".toList, []) := by
  decide

/-- An occurrence of `g` inside a concatenation lies in the left part,
lies in the right part, or straddles the junction. -/
theorem occSplit {x y g a b : List Char} (h : x ++ y = a ++ g ++ b) :
    (∃ b', x = a ++ g ++ b') ∨
    (∃ a', y = a' ++ g ++ b ∧ a = x ++ a') ∨
    (∃ g₁ g₂, g = g₁ ++ g₂ ∧ g₁ ≠ [] ∧ g₂ ≠ [] ∧ x = a ++ g₁ ∧ y = g₂ ++ b) := by
  rw [List.append_assoc] at h
  rcases List.append_eq_append_iff.mp h with ⟨k, hk1, hk2⟩ | ⟨k, hk1, hk2⟩
  · -- hk1 : a = x ++ k, hk2 : y = k ++ (g ++ b)
    exact Or.inr (Or.inl ⟨k, by rw [hk2, List.append_assoc], hk1⟩)
  · -- hk1 : x = a ++ k, hk2 : g ++ b = k ++ y
    rcases List.append_eq_append_iff.mp hk2 with ⟨j, hj1, hj2⟩ | ⟨j, hj1, hj2⟩
    · -- hj1 : k = g ++ j, hj2 : b = j ++ y
      refine Or.inl ⟨j, ?_⟩
      rw [hk1, hj1, List.append_assoc]
    · -- hj1 : g = k ++ j, hj2 : y = j ++ b
      rcases k with _ | ⟨kc, kr⟩
      · simp only [List.nil_append] at hj1 hk1
        refine Or.inr (Or.inl ⟨[], ?_, by simp [hk1]⟩)
        rw [hj2, hj1]
        simp
      · rcases j with _ | ⟨jc, jr⟩
        · simp only [List.append_nil] at hj1
          refine Or.inl ⟨[], ?_⟩
          rw [hk1, hj1]
          simp
        · exact Or.inr (Or.inr ⟨kc :: kr, jc :: jr, hj1, by simp, by simp, hk1, hj2⟩)

/-- An occurrence inside a string of the same length is the whole
string. -/
theorem occ_len_eq {y g a b : List Char} (h : y = a ++ g ++ b)
    (hl : y.length = g.length) : a = [] ∧ b = [] ∧ g = y := by
  have := congrArg List.length h
  simp only [List.length_append] at this
  have ha : a = [] := List.eq_nil_of_length_eq_zero (by omega)
  have hb : b = [] := List.eq_nil_of_length_eq_zero (by omega)
  subst ha hb
  simp only [List.nil_append, List.append_nil] at h
  exact ⟨rfl, rfl, h.symm⟩

/-- A string of hex characters has no occurrence inside a string with
no hex character. -/
theorem killAll {g x : List Char} (hg : g ≠ [])
    (hghex : ∀ c ∈ g, isHexLower c = true)
    (hx : ∀ c ∈ x, isHexLower c = false) : NoOcc g x := by
  rintro ⟨a, b, h⟩
  rcases g with _ | ⟨gc, gr⟩
  · exact hg rfl
  · have : gc ∈ x := by rw [h]; simp
    have h1 := hghex gc (by simp)
    have h2 := hx gc this
    rw [h1] at h2
    cases h2

/-- A nonempty left straddle piece of an all-hex string would put a hex
character at the end of the left fragment; impossible when that end is
guarded by a non-hex character. -/
theorem killLeft {g g₁ g₂ x a : List Char} (hsplit : g = g₁ ++ g₂) (h1 : g₁ ≠ [])
    (hx : x = a ++ g₁) (hghex : ∀ c ∈ g, isHexLower c = true)
    (hguard : ∀ c, x.getLast? = some c → isHexLower c = false) : False := by
  rcases List.eq_nil_or_concat g₁ with h0 | ⟨g₁h, c, hc⟩
  · exact h1 h0
  · rw [List.concat_eq_append] at hc
    have hcx : x.getLast? = some c := by
      rw [hx, hc, ← List.append_assoc]
      exact List.getLast?_concat _
    have hmem : c ∈ g := by
      rw [hsplit, hc]
      simp
    have hh := hghex c hmem
    rw [hguard c hcx] at hh
    cases hh

/-- A nonempty right straddle piece of an all-hex string would put a
hex character at the head of the right fragment; impossible when that
head is guarded by a non-hex character. -/
theorem killRight {g g₁ g₂ y b : List Char} (hsplit : g = g₁ ++ g₂) (h2 : g₂ ≠ [])
    (hy : y = g₂ ++ b) (hghex : ∀ c ∈ g, isHexLower c = true)
    (hguard : ∀ c, y.head? = some c → isHexLower c = false) : False := by
  rcases g₂ with _ | ⟨c, g₂r⟩
  · exact h2 rfl
  · have hcy : y.head? = some c := by rw [hy]; rfl
    have hmem : c ∈ g := by rw [hsplit]; simp
    have := hghex c hmem
    rw [hguard c hcy] at this
    cases this

/-- `List.isPrefixOf` spelled out as an existential. -/
theorem isPrefixOf_eq : ∀ (p s : List Char), p.isPrefixOf s = true ↔ ∃ t, s = p ++ t := by
  intro p
  induction p with
  | nil => intro s; simp [List.isPrefixOf]
  | cons a as ih =>
    intro s
    cases s with
    | nil => simp [List.isPrefixOf]
    | cons b bs =>
      simp only [List.isPrefixOf, Bool.and_eq_true, beq_iff_eq, ih bs, List.cons_append,
        List.cons_eq_cons]
      constructor
      · rintro ⟨hab, t, ht⟩; exact ⟨t, hab.symm, ht⟩
      · rintro ⟨t, hab, ht⟩; exact ⟨hab.symm, t, ht⟩

/-- `replace` leaves a string without occurrences unchanged. -/
theorem replaceAllAux_id (p r : List Char) (hp : p ≠ []) :
    ∀ (fuel : Nat) (s : List Char), s.length < fuel → NoOcc p s →
    replaceAllAux p r fuel s = s := by
  intro fuel
  induction fuel with
  | zero => intro s h _; omega
  | succ n ih =>
    intro s hlen hno
    cases s with
    | nil => rfl
    | cons c rest =>
      simp only [replaceAllAux]
      have hpre : p.isPrefixOf (c :: rest) = false := by
        cases hb : p.isPrefixOf (c :: rest)
        · rfl
        · obtain ⟨t, ht⟩ := (isPrefixOf_eq p (c :: rest)).mp hb
          exact absurd ⟨[], t, by simpa using ht⟩ hno
      rw [hpre]
      simp only [Bool.false_eq_true, if_false]
      have hno' : NoOcc p rest := by
        rintro ⟨a, b, hab⟩
        exact hno ⟨c :: a, b, by simp [hab]⟩
      rw [ih rest (by simp at hlen; omega) hno']

/-- `replace` at a unique occurrence substitutes exactly there. -/
theorem replaceAllAux_unique (p r : List Char) (hp : p ≠ []) :
    ∀ (fuel : Nat) (A B : List Char), (A ++ p ++ B).length < fuel →
    (∀ A' B', A ++ p ++ B = A' ++ p ++ B' → A' = A) →
    replaceAllAux p r fuel (A ++ p ++ B) = A ++ r ++ B := by
  intro fuel
  induction fuel with
  | zero => intro A B h _; omega
  | succ n ih =>
    intro A B hlen huniq
    cases A with
    | nil =>
      rcases hpc : p with _ | ⟨pc, pr⟩
      · exact absurd hpc hp
      subst hpc
      simp only [List.nil_append, List.cons_append, replaceAllAux]
      have hpre : (pc :: pr).isPrefixOf (pc :: (pr ++ B)) = true :=
        (isPrefixOf_eq _ _).mpr ⟨B, by simp⟩
      rw [hpre, if_pos rfl]
      have hdrop : (pc :: (pr ++ B)).drop (pc :: pr).length = B := by
        have hd := List.drop_left (pc :: pr) B
        simpa using hd
      rw [hdrop]
      have hnoB : NoOcc (pc :: pr) B := by
        rintro ⟨a, b, hab⟩
        have h0 := huniq ((pc :: pr) ++ a) b (by rw [hab]; simp)
        simp at h0
      rw [replaceAllAux_id (pc :: pr) r (by simp) n B (by simp at hlen ⊢; omega) hnoB]
    | cons c A' =>
      simp only [List.cons_append, List.append_assoc, replaceAllAux]
      have hpre : p.isPrefixOf (c :: (A' ++ (p ++ B))) = false := by
        cases hb : p.isPrefixOf (c :: (A' ++ (p ++ B)))
        · rfl
        · exfalso
          obtain ⟨t, ht⟩ := (isPrefixOf_eq _ _).mp hb
          have h0 := huniq [] t (by
            simp only [List.nil_append]
            rw [← ht]
            simp)
          simp at h0
      rw [hpre]
      simp only [Bool.false_eq_true, if_false]
      have huniq2 : ∀ A₁ B₁, A' ++ p ++ B = A₁ ++ p ++ B₁ → A₁ = A' := by
        intro A₁ B₁ h₁
        have h2 := huniq (c :: A₁) B₁ (by simp [h₁, List.append_assoc])
        exact (List.cons.injEq _ _ _ _).mp h2 |>.2
      have h3 := ih A' B (by simp at hlen ⊢; omega) huniq2
      rw [List.append_assoc, List.append_assoc] at h3
      rw [h3]

/-- `str.replace` at a unique occurrence. -/
theorem replaceAll_unique (p r : List Char) (hp : p ≠ []) (A B : List Char)
    (huniq : ∀ A' B', A ++ p ++ B = A' ++ p ++ B' → A' = A) :
    replaceAll p r (A ++ p ++ B) = A ++ r ++ B :=
  replaceAllAux_unique p r hp _ A B (by omega) huniq

/-- A successful entity match captures an initial segment of the
string, and the captured text has the entity shape. -/
theorem entityAt_some {s e r : List Char} (h : entityAt s = some (e, r)) :
    s = e ++ r ∧ IsEntity e := by
  unfold entityAt at h
  split at h
  next rest =>
    dsimp only at h
    by_cases hh : rest.head? = some '#'
    · rw [if_pos hh, if_pos hh] at h
      rcases rest with _ | ⟨c1, r1⟩
      · simp at hh
      · have hc1 : c1 = '#' := by simpa using hh
        subst hc1
        simp only [List.tail_cons] at h
        split at h
        · simp at h
        next hw =>
          split at h
          next r2 hr2 =>
            cases h
            refine ⟨?_, ['#'], r1.takeWhile isWordChar, Or.inr rfl, hw,
              fun c hc => List.mem_takeWhile_imp hc, by simp⟩
            conv_lhs =>
              rw [← List.takeWhile_append_dropWhile (p := isWordChar) (l := r1), hr2]
            simp
          next => simp at h
    · rw [if_neg hh, if_neg hh] at h
      split at h
      · simp at h
      next hw =>
        split at h
        next r2 hr2 =>
          cases h
          refine ⟨?_, [], rest.takeWhile isWordChar, Or.inl rfl, hw,
            fun c hc => List.mem_takeWhile_imp hc, by simp⟩
          conv_lhs =>
            rw [← List.takeWhile_append_dropWhile (p := isWordChar) (l := rest), hr2]
          simp
        next => simp at h
  next => simp at h

/-- Prepending a character to the first gap prepends it to the
interleaving. -/
theorem interleave_cons_head (c : Char) (t : List Char) (ts xs : List (List Char)) :
    interleave ((c :: t) :: ts) xs = c :: interleave (t :: ts) xs := by
  cases xs <;> simp [interleave]

/-- The decomposition `protect` induces: the input text is the
alternation of untouched gaps with the recorded entity texts, the
protected output is the same alternation with the placeholders instead,
every recorded piece has entity shape, the placeholders are the
generated tokens numbered consecutively from `n`, and at most one pair
is recorded per input character. -/
theorem protectAux_spec (hex : Nat → List Char) :
    ∀ (fuel n : Nat) (s : List Char), s.length < fuel →
    ∃ ts : List (List Char),
      ts.length = (protectAux hex fuel n s).2.length + 1 ∧
      s = interleave ts ((protectAux hex fuel n s).2.map Prod.snd) ∧
      (protectAux hex fuel n s).1 = interleave ts ((protectAux hex fuel n s).2.map Prod.fst) ∧
      (∀ pe ∈ (protectAux hex fuel n s).2, IsEntity pe.2) ∧
      ((protectAux hex fuel n s).2.map Prod.fst =
        (List.range (protectAux hex fuel n s).2.length).map (fun i => placeholder hex (n + i))) ∧
      (protectAux hex fuel n s).2.length ≤ s.length := by
  intro fuel
  induction fuel with
  | zero => intro n s h; omega
  | succ f ih =>
    intro n s hlen
    cases he : entityAt s with
    | some er =>
      obtain ⟨e, rv⟩ := er
      obtain ⟨hse, hent⟩ := entityAt_some he
      have henn : e ≠ [] := by
        obtain ⟨hash, w, _, _, _, hee⟩ := hent
        simp [hee]
      have hel : 1 ≤ e.length := by
        rcases e with _ | ⟨x, xs⟩
        · exact absurd rfl henn
        · simp
      have hsl : s.length = e.length + rv.length := by rw [hse]; simp
      have hrl : rv.length < f := by omega
      obtain ⟨ts', h1, h2, h3, h4, h5, h6⟩ := ih (n + 1) rv hrl
      set P := protectAux hex f (n + 1) rv with hP
      have hstep : protectAux hex (f + 1) n s =
          (placeholder hex n ++ P.1, (placeholder hex n, e) :: P.2) := by
        rw [hP]
        simp [protectAux, he]
      rw [hstep]
      refine ⟨[] :: ts', by simp [h1], ?_, ?_, ?_, ?_, by simp; omega⟩
      · simp only [List.map_cons, interleave, List.nil_append]
        rw [hse, h2]
      · simp only [List.map_cons, interleave, List.nil_append]
        rw [h3]
      · intro pe hpe
        rcases List.mem_cons.mp hpe with hh | hh
        · rw [hh]; exact hent
        · exact h4 pe hh
      · simp only [List.map_cons, List.length_cons, List.range_succ_eq_map,
          List.map_map, List.cons.injEq]
        refine ⟨by simp, ?_⟩
        rw [h5]
        apply List.map_congr_left
        intro i _
        simp only [Function.comp]
        congr 1
        omega
    | none =>
      cases s with
      | nil =>
        have hstep : protectAux hex (f + 1) n [] = ([], []) := rfl
        rw [hstep]
        exact ⟨[[]], by simp, by simp [interleave], by simp [interleave],
          by simp, by simp, by simp⟩
      | cons c rest =>
        have hstep : protectAux hex (f + 1) n (c :: rest) =
            (c :: (protectAux hex f n rest).1, (protectAux hex f n rest).2) := by
          simp [protectAux, he]
        rw [hstep]
        obtain ⟨ts', h1, h2, h3, h4, h5, h6⟩ := ih n rest (by simp at hlen; omega)
        rcases ts' with _ | ⟨t, ts''⟩
        · simp at h1
        refine ⟨(c :: t) :: ts'', by simp at h1 ⊢; omega, ?_, ?_, h4, h5, by simp; omega⟩
        · rw [interleave_cons_head, ← h2]
        · rw [interleave_cons_head, ← h3]

/-- A successful year-group match captures an initial segment of the
string: the input is the captured text followed by the remainder, and
the captured text is nonempty. -/
theorem matchYearAt_eq {s y r : List Char} (h : matchYearAt s = some (y, r)) :
    s = y ++ r ∧ y ≠ [] := by
  unfold matchYearAt at h
  dsimp only at h
  split at h
  next d1 d2 d3 d4 rest =>
    split at h
    · split at h
      next heq =>
        cases h
        exact ⟨rfl, by simp⟩
      next c rest3 heq =>
        have hr : rest = rest.takeWhile isSpace ++ (c :: rest3) := by
          conv_lhs => rw [← List.takeWhile_append_dropWhile (p := isSpace) (l := rest)]
          rw [heq]
        split at h
        · split at h
          · cases h
            refine ⟨?_, by simp⟩
            simp only [List.cons_append, List.nil_append, List.append_assoc,
              List.singleton_append]
            conv_lhs => rw [hr]
          · split at h
            · simp at h
            · cases h
              refine ⟨?_, by simp⟩
              simp only [List.cons_append, List.nil_append, List.append_assoc]
              conv_lhs => rw [hr]
              rw [heq]
        · split at h
          · split at h
            · simp at h
            · cases h
              refine ⟨?_, by simp⟩
              simp only [List.cons_append, List.nil_append, List.append_assoc]
              conv_lhs => rw [hr]
              rw [heq]
          · cases h
            exact ⟨rfl, by simp⟩
    · simp at h
  next => simp at h

/-- A successful citation match captures an initial segment of the
string: the input is the matched span followed by the remainder, the
author word is nonempty and the year text is nonempty. -/
theorem matchCiteAt_eq {pw : Bool} {s : List Char} {m : Cite} {r : List Char}
    (h : matchCiteAt pw s = some (m, r)) :
    s = citeSpan m ++ r ∧ m.author ≠ [] ∧ m.year ≠ [] := by
  unfold matchCiteAt at h
  dsimp only at h
  split at h
  · simp at h
  · split at h
    · simp at h
    next c rest =>
      split at h
      · split at h
        · simp at h
        · split at h
          · simp at h
          · split at h
            next y r' heq =>
              cases h
              obtain ⟨hy, hynn⟩ := matchYearAt_eq heq
              refine ⟨?_, by simp, hynn⟩
              have key : rest = rest.takeWhile isAuthorChar ++
                  ((rest.dropWhile isAuthorChar).takeWhile isSpace ++ (y ++ r)) := by
                conv_lhs =>
                  rw [← List.takeWhile_append_dropWhile (p := isAuthorChar) (l := rest)]
                congr 1
                conv_lhs =>
                  rw [← List.takeWhile_append_dropWhile (p := isSpace)
                    (l := rest.dropWhile isAuthorChar)]
                congr 1
              simp only [citeSpan, List.cons_append, List.append_assoc]
              conv_lhs => rw [key]
            next heq => simp at h
      · simp at h

/-- The scan of a string decomposes it exactly: gluing the gaps and
matched spans back together restores the input (generalized over the
fuel, the boundary flag and the pending reversed gap). -/
theorem scanAux_glue : ∀ (fuel : Nat) (pw : Bool) (gap s : List Char),
    s.length < fuel → glueScan (scanAux fuel pw gap s) = gap.reverse ++ s := by
  intro fuel
  induction fuel with
  | zero => intro pw gap s hlen; omega
  | succ n ih =>
    intro pw gap s hlen
    simp only [scanAux]
    cases hm : matchCiteAt pw s with
    | some mr =>
      obtain ⟨hspan, hauth, hyear⟩ := matchCiteAt_eq hm
      have hlen2 : mr.2.length < n := by
        have h1 : s.length = (citeSpan mr.1).length + mr.2.length := by
          rw [hspan]; simp
        have h2 : 1 ≤ (citeSpan mr.1).length := by
          rcases hc : mr.1.author with _ | ⟨a, b⟩
          · exact absurd hc hauth
          · simp [citeSpan, hc]
        omega
      have hrec := ih (isWordChar (mr.1.year.getLastD ' ')) [] mr.2 hlen2
      simp only [glueScan] at hrec ⊢
      simp only [List.map_cons, List.flatten_cons, List.append_assoc, List.reverse_nil,
        List.nil_append] at hrec ⊢
      rw [hrec, hspan]
    | none =>
      cases s with
      | nil => simp [glueScan]
      | cons c rest =>
        have := ih (isWordChar c) (c :: gap) rest (by simp at hlen; omega)
        rw [this]
        simp

/-- The scanner's decomposition of a text node restores the node text. -/
theorem scan_glue (s : List Char) : glueScan (scanText s) = s := by
  have h := scanAux_glue (s.length + 1) false [] s (by omega)
  simpa [scanText] using h

/-- The visible text of a concatenation of fragment sequences. -/
theorem textOf_append (a b : List Fragment) :
    textOf (a ++ b) = textOf a ++ textOf b := by
  simp [textOf]

/-- The visible text the rewriter emits for one match equals the
matched span, provided the separator of an index-hit match is a single
space (on a miss the span is emitted verbatim anyway). -/
theorem textOf_emitCite (idx : Index) (m : Cite)
    (h : (lookupIdx idx (citeKey m)).isSome = true → m.sep = [' ']) :
    textOf (emitCite idx m) = citeSpan m := by
  unfold emitCite
  split
  next e es heq =>
    have hsep : m.sep = [' '] := h (by rw [heq]; rfl)
    simp [textOf, citeSpan, hsep]
  next heq => simp [textOf]
  next heq => simp [textOf]

/-- C5 amended: the rewriter preserves all text outside matched spans
and never deletes content, but it replaces the author-to-year
whitespace of every linked match by a single space; hence the
concatenated visible text of the produced fragments equals the original
node text exactly whenever every match whose key is in the index has a
single-space separator (and in particular never otherwise loses
anything but that separator). -/
theorem c5_amended (idx : Index) (node : TextNode)
    (h : ∀ gm ∈ (scanText node.text).1,
      (lookupIdx idx (citeKey gm.2)).isSome = true → gm.2.sep = [' ']) :
    textOf (processNode idx node) = node.text := by
  unfold processNode
  split
  · simp [textOf]
  · conv_rhs => rw [← scan_glue node.text]
    revert h
    generalize scanText node.text = sc
    obtain ⟨segs, tl⟩ := sc
    intro h
    simp only [glueScan]
    rw [textOf_append]
    have htl : textOf (if tl = [] then [] else [Fragment.text tl]) = tl := by
      split
      next h0 => simp [textOf, h0]
      next => simp [textOf]
    rw [htl]
    congr 1
    induction segs with
    | nil => simp [textOf]
    | cons hd rest ih =>
      simp only [List.map_cons, List.flatten_cons]
      simp only [textOf_append]
      rw [textOf_emitCite idx hd.2 (h hd (List.mem_cons_self _ _)),
        ih (fun gm hm hs => h gm (List.mem_cons_of_mem _ hm) hs)]
      have hgap : textOf (if hd.1 = [] then [] else [Fragment.text hd.1]) = hd.1 := by
        split
        next h0 => simp [textOf, h0]
        next => simp [textOf]
      rw [hgap, List.append_assoc]

/-- Appending an entry for key `k` makes lookup at `k` return the old
sequence extended by that entry at the end. -/
theorem lookupIdx_appendEntry_same (idx : Index) (k : List Char) (e : BibEntry) :
    lookupIdx (appendEntry idx k e) k = some ((lookupIdx idx k).getD [] ++ [e]) := by
  induction idx with
  | nil => simp [appendEntry, lookupIdx]
  | cons hd rest ih =>
    obtain ⟨k', es⟩ := hd
    by_cases hk : k' = k
    · simp [appendEntry, lookupIdx, hk]
    · simp [appendEntry, lookupIdx, hk, ih]

/-- Appending an entry for key `k` leaves lookup at other keys alone. -/
theorem lookupIdx_appendEntry_ne (idx : Index) (k q : List Char) (e : BibEntry)
    (h : q ≠ k) : lookupIdx (appendEntry idx k e) q = lookupIdx idx q := by
  have hq : k ≠ q := Ne.symm h
  induction idx with
  | nil => simp [appendEntry, lookupIdx, hq]
  | cons hd rest ih =>
    obtain ⟨k', es⟩ := hd
    by_cases hk : k' = k
    · subst hk
      simp [appendEntry, lookupIdx, hq]
    · simp [appendEntry, lookupIdx, hk, ih]

/-- What the index fold records for a key, over any starting index:
exactly the entries of the processed items with that key, appended in
document order. -/
theorem lookupIdx_foldl (f k : List Char) : ∀ (items : List BibItem) (idx0 : Index),
    lookupIdx (items.foldl (indexStep f) idx0) k =
      match lookupIdx idx0 k with
      | some es => some (es ++ entriesFor f k items)
      | none =>
        if entriesFor f k items = [] then none else some (entriesFor f k items) := by
  intro items
  induction items with
  | nil =>
    intro idx0
    cases hl : lookupIdx idx0 k <;> simp [entriesFor, hl]
  | cons it rest ih =>
    intro idx0
    simp only [List.foldl_cons]
    rw [ih]
    cases hk : bibEntryKey it.text with
    | none =>
      have hstep : indexStep f idx0 it = idx0 := by simp [indexStep, hk]
      have he : entriesFor f k (it :: rest) = entriesFor f k rest := by
        simp [entriesFor, List.filterMap_cons, hk]
      rw [hstep, he]
    | some k2 =>
      by_cases hk2 : k2 = k
      · subst hk2
        have hstep : indexStep f idx0 it = appendEntry idx0 k2 ⟨it.id, f⟩ := by
          simp [indexStep, hk]
        have he : entriesFor f k2 (it :: rest) =
            (⟨it.id, f⟩ : BibEntry) :: entriesFor f k2 rest := by
          simp [entriesFor, List.filterMap_cons, hk]
        rw [hstep, he, lookupIdx_appendEntry_same]
        cases hl : lookupIdx idx0 k2 <;> simp [hl]
      · have hstep : indexStep f idx0 it = appendEntry idx0 k2 ⟨it.id, f⟩ := by
          simp [indexStep, hk]
        have he : entriesFor f k (it :: rest) = entriesFor f k rest := by
          simp [entriesFor, List.filterMap_cons, hk, hk2]
        rw [hstep, he, lookupIdx_appendEntry_ne _ _ _ _ (fun hc => hk2 hc.symm)]

/-- The `bib_data` dict gives, for each key, precisely the entries of
the bibliography items with that key, in document order. -/
theorem buildIndex_lookup (f k : List Char) (items : List BibItem) :
    lookupIdx (buildIndex f items) k =
      if entriesFor f k items = [] then none else some (entriesFor f k items) := by
  unfold buildIndex
  rw [lookupIdx_foldl]
  simp [lookupIdx]

/-- The head of a key's entry sequence is the entry of the first
bibliography item, in document order, bearing that key. -/
theorem entriesFor_head (f k : List Char) : ∀ (items : List BibItem) (e : BibEntry)
    (tl : List BibEntry), entriesFor f k items = e :: tl →
    (firstItemFor k items).map (fun it => (⟨it.id, f⟩ : BibEntry)) = some e := by
  intro items
  induction items with
  | nil => intro e tl h; simp [entriesFor] at h
  | cons it rest ih =>
    intro e tl h
    by_cases hk : bibEntryKey it.text = some k
    · simp only [entriesFor, List.filterMap_cons, if_pos hk] at h
      injection h with h1 _
      unfold firstItemFor
      rw [List.find?_cons_of_pos _ (by simp [hk])]
      simp [h1]
    · simp only [entriesFor, List.filterMap_cons, if_neg hk] at h
      unfold firstItemFor
      rw [List.find?_cons_of_neg _ (by simp [hk])]
      exact ih e tl h

/-- C2: when a normalized key is held by two or more bibliography
entries, the hyperlink the rewriter emits for a citation bearing that
key targets the first entry of the key's insertion-ordered sequence,
and that entry belongs to the bibliography item appearing first in
document order; no letter-suffix disambiguation takes place.  The
rewriter is a pure function of its inputs, so this is the outcome on
every run. -/
theorem c2_tie_break (f : List Char) (items : List BibItem) (m : Cite)
    (e : BibEntry) (tl : List BibEntry)
    (hk : lookupIdx (buildIndex f items) (citeKey m) = some (e :: tl))
    (hmul : 1 ≤ tl.length) :
    emitCite (buildIndex f items) m =
      [Fragment.text (m.author ++ [' ']),
       Fragment.link (e.filename ++ '#' :: e.id) m.year] ∧
    (firstItemFor (citeKey m) items).map (fun it => (⟨it.id, f⟩ : BibEntry)) = some e := by
  constructor
  · unfold emitCite
    rw [hk]
  · have hE := buildIndex_lookup f (citeKey m) items
    rw [hk] at hE
    by_cases h0 : entriesFor f (citeKey m) items = []
    · rw [if_pos h0] at hE
      cases hE
    · rw [if_neg h0] at hE
      exact entriesFor_head f (citeKey m) items e tl (Option.some.inj hE.symm)

/-- C2 witness: two entries collapsing to `smith1999`; the citation
links to the first (`b1`) and that is the first matching item. -/
theorem c2_tie_break_witness :
    emitCite (buildIndex "bib.xhtml".toList
        [⟨"b1".toList, "Smith, A. (1999).".toList⟩,
         ⟨"b2".toList, "Smith, B. (1999).".toList⟩])
      ⟨"Smith".toList, [' '], "1999".toList⟩ =
      [Fragment.text ("Smith".toList ++ [' ']),
       Fragment.link ("bib.xhtml".toList ++ '#' :: "b1".toList) "1999".toList] ∧
    (firstItemFor (citeKey ⟨"Smith".toList, [' '], "1999".toList⟩)
        [⟨"b1".toList, "Smith, A. (1999).".toList⟩,
         ⟨"b2".toList, "Smith, B. (1999).".toList⟩]).map
      (fun it => (⟨it.id, "bib.xhtml".toList⟩ : BibEntry)) =
      some ⟨"b1".toList, "bib.xhtml".toList⟩ :=
  c2_tie_break "bib.xhtml".toList
    [⟨"b1".toList, "Smith, A. (1999).".toList⟩, ⟨"b2".toList, "Smith, B. (1999).".toList⟩]
    ⟨"Smith".toList, [' '], "1999".toList⟩
    ⟨"b1".toList, "bib.xhtml".toList⟩ [⟨"b2".toList, "bib.xhtml".toList⟩]
    (by decide) (by decide)

/-- Head of an append whose left part is nonempty. -/
theorem head?_append_left {l1 l2 : List Char} (h : l1 ≠ []) :
    (l1 ++ l2).head? = l1.head? := by
  cases l1
  · exact absurd rfl h
  · rfl

/-- Last of an append whose right part is nonempty. -/
theorem getLast?_append_right {l1 l2 : List Char} (h : l2 ≠ []) :
    (l1 ++ l2).getLast? = l2.getLast? := by
  rcases List.eq_nil_or_concat l2 with h0 | ⟨l2h, c, hc⟩
  · exact absurd h0 h
  · rw [List.concat_eq_append] at hc
    rw [hc, ← List.append_assoc, List.getLast?_concat, List.getLast?_concat]

/-- No character of the fixed placeholder head is lowercase hex. -/
theorem entLead_nonhex : ∀ c ∈ entLead, isHexLower c = false := by decide

/-- No character of the fixed placeholder tail is lowercase hex. -/
theorem undTail_nonhex : ∀ c ∈ undTail, isHexLower c = false := by decide

/-- A placeholder token in terms of its affixes. -/
theorem placeholder_eq (hex : Nat → List Char) (n : Nat) :
    placeholder hex n = entLead ++ hex n ++ undTail := rfl

/-- A placeholder token starts with an underscore. -/
theorem placeholder_head? (hex : Nat → List Char) (n : Nat) :
    (placeholder hex n).head? = some '_' := rfl

/-- A placeholder token ends with an underscore. -/
theorem placeholder_getLast? (hex : Nat → List Char) (n : Nat) :
    (placeholder hex n).getLast? = some '_' := by
  rw [placeholder_eq, getLast?_append_right (show undTail ≠ [] by decide)]
  decide

/-- Recover the hex core from a well-shaped placeholder. -/
theorem coreOf_eq {g : List Char} (hlg : g.length = 32) :
    coreOf (entLead ++ g ++ undTail) = g := by
  unfold coreOf
  rw [List.append_assoc, List.drop_left, ← hlg, List.take_left]

/-- An entity literal is nonempty. -/
theorem entity_ne_nil {e : List Char} (he : IsEntity e) : e ≠ [] := by
  obtain ⟨hash, w, _, _, _, hee⟩ := he
  simp [hee]

/-- An entity literal starts with the ampersand. -/
theorem entity_head? {e : List Char} (he : IsEntity e) : e.head? = some '&' := by
  obtain ⟨hash, w, _, _, _, hee⟩ := he
  rw [hee]
  rfl

/-- An entity literal ends with the semicolon. -/
theorem entity_getLast? {e : List Char} (he : IsEntity e) : e.getLast? = some ';' := by
  obtain ⟨hash, w, _, _, _, hee⟩ := he
  rw [hee, show '&' :: (hash ++ w ++ [';']) = ('&' :: (hash ++ w)) ++ [';'] by simp]
  exact List.getLast?_concat _

/-- Inside a placeholder token, an all-hex string of core length can
occur only as the core itself, exactly between the affixes. -/
theorem occ_in_placeholder {h g : List Char} (hh : ∀ c ∈ h, isHexLower c = true)
    (hhl : h.length = 32) (hgl : g.length = 32)
    {a b : List Char} (heq : entLead ++ g ++ undTail = a ++ h ++ b) :
    h = g ∧ a = entLead ∧ b = undTail := by
  have hhn : h ≠ [] := by
    intro h0
    rw [h0] at hhl
    simp at hhl
  rw [List.append_assoc] at heq
  rcases occSplit heq with ⟨b', hb'⟩ | ⟨a', ha', haa⟩ | ⟨g₁, g₂, hsp, h1, h2, hx, hy⟩
  · exact absurd ⟨a, b', hb'⟩ (killAll hhn hh entLead_nonhex)
  · rcases occSplit ha' with ⟨b'', hb''⟩ | ⟨a'', ha'', haa2⟩ | ⟨g₁, g₂, hsp, h1, h2, hx, hy⟩
    · obtain ⟨ha0, hb0, hhg⟩ := occ_len_eq hb'' (by omega)
      refine ⟨hhg, by rw [haa, ha0]; simp, ?_⟩
      rw [ha0, List.nil_append, hhg] at ha'
      exact (List.append_cancel_left ha').symm
    · exact absurd ⟨a'', b, ha''⟩ (killAll hhn hh undTail_nonhex)
    · exact absurd (killRight hsp h2 hy hh (fun c hc => by
        rw [show undTail.head? = some '_' from rfl] at hc
        rw [← Option.some_inj.mp hc]
        decide)) (fun x => x)
  · exact absurd (killLeft hsp h1 hx hh (fun c hc => by
      rw [show entLead.getLast? = some '_' by decide] at hc
      rw [← Option.some_inj.mp hc]
      decide)) (fun x => x)

/-- An all-hex core does not occur inside a placeholder carrying a
different core. -/
theorem noOcc_core_placeholder {h g : List Char} (hh : ∀ c ∈ h, isHexLower c = true)
    (hhl : h.length = 32) (hgl : g.length = 32) (hne : h ≠ g) :
    NoOcc h (entLead ++ g ++ undTail) := by
  rintro ⟨a, b, heq⟩
  exact hne (occ_in_placeholder hh hhl hgl heq).1

/-- An all-hex core with no occurrence in any gap and none in any of
the pending placeholders does not occur in their alternation. -/
theorem noOcc_interleave {h : List Char} (hhn : h ≠ [])
    (hh : ∀ c ∈ h, isHexLower c = true) :
    ∀ (ps ts : List (List Char)), ts.length = ps.length + 1 →
    (∀ t ∈ ts, NoOcc h t) →
    (∀ p ∈ ps, NoOcc h p ∧ p ≠ [] ∧
      (∀ c, p.head? = some c → isHexLower c = false) ∧
      (∀ c, p.getLast? = some c → isHexLower c = false)) →
    NoOcc h (interleave ts ps) := by
  intro ps
  induction ps with
  | nil =>
    intro ts hlen hts _
    rcases ts with _ | ⟨t, ts'⟩
    · simp at hlen
    rcases ts' with _ | ⟨t2, ts''⟩
    · rintro ⟨a, b, hab⟩
      exact hts t (by simp) ⟨a, b, by simpa [interleave] using hab⟩
    · simp at hlen
  | cons p ps' ih =>
    intro ts hlen hts hps
    rcases ts with _ | ⟨t, ts'⟩
    · simp at hlen
    obtain ⟨hpno, hpnn, hphead, hplast⟩ := hps p (by simp)
    rintro ⟨a, b, hab⟩
    rw [show interleave (t :: ts') (p :: ps') = t ++ (p ++ interleave ts' ps') by
      simp [interleave]] at hab
    rcases occSplit hab with ⟨b', hb'⟩ | ⟨a', ha', haa⟩ | ⟨g₁, g₂, hsp, h1, h2, hx, hy⟩
    · exact hts t (by simp) ⟨a, b', hb'⟩
    · rcases occSplit ha' with ⟨b'', hb''⟩ | ⟨a'', ha'', haa2⟩ | ⟨g₁, g₂, hsp, h1, h2, hx, hy⟩
      · exact hpno ⟨a', b'', hb''⟩
      · exact ih ts' (by simpa using hlen) (fun u hu => hts u (by simp [hu]))
          (fun q hq => hps q (by simp [hq])) ⟨a'', b, ha''⟩
      · exact killLeft hsp h1 hx hh hplast
    · refine killRight hsp h2 hy hh (fun c hc => ?_)
      apply hphead c
      rw [← hc]
      exact (head?_append_left hpnn).symm

/-- A placeholder-shaped string is nonempty. -/
theorem shape_ne_nil (x : List Char) : entLead ++ x ++ undTail ≠ [] := by
  intro hC
  have hL := congrArg List.length hC
  simp only [List.length_append, List.length_nil] at hL
  have h9 : entLead.length = 9 := by decide
  omega

/-- A placeholder-shaped string starts with an underscore. -/
theorem shape_head? (x : List Char) : (entLead ++ x ++ undTail).head? = some '_' := rfl

/-- A placeholder-shaped string ends with an underscore. -/
theorem shape_getLast? (x : List Char) :
    (entLead ++ x ++ undTail).getLast? = some '_' := by
  rw [getLast?_append_right (show undTail ≠ [] by decide)]
  decide

/-- The restore loop of lines 121-122, over a string shaped as an
untouched head followed by the alternation of gaps and pending
placeholders: replacing the placeholders one by one, in order, restores
the entities exactly in place.  The hypotheses say the placeholders are
well-shaped with pairwise-distinct all-hex cores of length 32, the
recorded texts are entities, and no core occurs in the head, in any
gap, or in any recorded entity. -/
theorem restore_loop :
    ∀ (pes : List (List Char × List Char)) (pre : List Char) (ts : List (List Char)),
    ts.length = pes.length + 1 →
    (∀ pe ∈ pes, pe.1 = entLead ++ coreOf pe.1 ++ undTail ∧ (coreOf pe.1).length = 32 ∧
      (∀ c ∈ coreOf pe.1, isHexLower c = true)) →
    (∀ pe ∈ pes, IsEntity pe.2) →
    List.Pairwise (fun a b => coreOf a.1 ≠ coreOf b.1) pes →
    (∀ pe ∈ pes, ∀ t ∈ ts, NoOcc (coreOf pe.1) t) →
    (∀ pe ∈ pes, ∀ pe' ∈ pes, NoOcc (coreOf pe.1) pe'.2) →
    (∀ pe ∈ pes, NoOcc (coreOf pe.1) pre) →
    (∀ c, pre.getLast? = some c → isHexLower c = false) →
    List.foldl (fun acc pe => replaceAll pe.1 pe.2 acc)
        (pre ++ interleave ts (pes.map Prod.fst)) pes =
      pre ++ interleave ts (pes.map Prod.snd) := by
  intro pes
  induction pes with
  | nil => intro pre ts _ _ _ _ _ _ _ _; rfl
  | cons pe0 pes' ih =>
    obtain ⟨p, e⟩ := pe0
    intro pre ts hlen hshape hent hdist hts hes hpre hguard
    rcases ts with _ | ⟨t, ts'⟩
    · simp at hlen
    have hplen : ts'.length = pes'.length + 1 := by simpa using hlen
    obtain ⟨hpshape, hclen, hchex⟩ := hshape (p, e) (by simp)
    simp only at hpshape hclen hchex
    have hgn : coreOf p ≠ [] := by
      intro h0
      rw [h0] at hclen
      simp at hclen
    have hEnt : IsEntity e := hent (p, e) (by simp)
    have hpn : p ≠ [] := by
      rw [hpshape]
      exact shape_ne_nil _
    have hSform : interleave (t :: ts') (((p, e) :: pes').map Prod.fst) =
        t ++ (p ++ interleave ts' (pes'.map Prod.fst)) := by
      simp [interleave, List.append_assoc]
    have hSform2 : interleave (t :: ts') (((p, e) :: pes').map Prod.snd) =
        t ++ (e ++ interleave ts' (pes'.map Prod.snd)) := by
      simp [interleave, List.append_assoc]
    have huniqg : ∀ A B,
        pre ++ (t ++ (p ++ interleave ts' (pes'.map Prod.fst))) = A ++ coreOf p ++ B →
        A = pre ++ t ++ entLead := by
      intro A B hAB
      rcases occSplit hAB with ⟨b', hb'⟩ | ⟨a', ha', haa⟩ | ⟨g₁, g₂, hsp, h1, h2, hx, hy⟩
      · exact absurd ⟨A, b', hb'⟩ (hpre (p, e) (by simp))
      · rcases occSplit ha' with ⟨b'', hb''⟩ | ⟨a'', ha'', haa2⟩ |
          ⟨g₁, g₂, hsp, h1, h2, hx, hy⟩
        · exact absurd ⟨a', b'', hb''⟩ (hts (p, e) (by simp) t (by simp))
        · rcases occSplit ha'' with ⟨b₃, hb₃⟩ | ⟨a₃, ha₃, haa3⟩ |
            ⟨g₁, g₂, hsp, h1, h2, hx, hy⟩
          · have hocc := occ_in_placeholder hchex hclen hclen
              (a := a'') (b := b₃) (by rw [← hpshape]; exact hb₃)
            obtain ⟨-, ha₃e, -⟩ := hocc
            rw [haa, haa2, ha₃e]
            simp [List.append_assoc]
          · refine absurd ⟨a₃, B, ha₃⟩ (noOcc_interleave hgn hchex
              (pes'.map Prod.fst) ts' (by simpa using hplen) ?_ ?_)
            · exact fun u hu => hts (p, e) (by simp) u (by simp [hu])
            · intro q hq
              obtain ⟨pe', hpe', hq'⟩ := List.mem_map.mp hq
              obtain ⟨hs2, hl2, hx2⟩ := hshape pe' (by simp [hpe'])
              have hne : coreOf p ≠ coreOf pe'.1 :=
                (List.pairwise_cons.mp hdist).1 pe' hpe'
              subst hq'
              refine ⟨?_, ?_, ?_, ?_⟩
              · rw [hs2]
                exact noOcc_core_placeholder hchex hclen hl2 hne
              · rw [hs2]
                exact shape_ne_nil _
              · intro c hc
                rw [hs2, shape_head? ] at hc
                rw [← Option.some_inj.mp hc]
                decide
              · intro c hc
                rw [hs2, shape_getLast? ] at hc
                rw [← Option.some_inj.mp hc]
                decide
          · exact absurd (killLeft hsp h1 hx hchex (fun c hc => by
              rw [hpshape, shape_getLast? ] at hc
              rw [← Option.some_inj.mp hc]
              decide)) id
        · exact absurd (killRight hsp h2 hy hchex (fun c hc => by
            rw [head?_append_left hpn, hpshape, shape_head? ] at hc
            rw [← Option.some_inj.mp hc]
            decide)) id
      · exact absurd (killLeft hsp h1 hx hchex hguard) id
    have huniqp : ∀ A B,
        pre ++ (t ++ (p ++ interleave ts' (pes'.map Prod.fst))) = A ++ p ++ B →
        A = pre ++ t := by
      intro A B hAB
      have hform : pre ++ (t ++ (p ++ interleave ts' (pes'.map Prod.fst))) =
          (A ++ entLead) ++ coreOf p ++ (undTail ++ B) := by
        rw [hAB]
        conv_lhs => rw [hpshape]
        simp [List.append_assoc]
      have hA := huniqg _ _ hform
      exact List.append_cancel_right (by simpa [List.append_assoc] using hA)
    have hrepl : replaceAll p e (pre ++ (t ++ (p ++ interleave ts' (pes'.map Prod.fst)))) =
        pre ++ (t ++ (e ++ interleave ts' (pes'.map Prod.fst))) := by
      have hS : pre ++ (t ++ (p ++ interleave ts' (pes'.map Prod.fst))) =
          (pre ++ t) ++ p ++ interleave ts' (pes'.map Prod.fst) := by
        simp [List.append_assoc]
      rw [hS, replaceAll_unique p e hpn (pre ++ t) _
        (fun A' B' hA' => huniqp A' B' (by rw [hS]; exact hA'))]
      simp [List.append_assoc]
    have hpre2 : ∀ pe'' ∈ pes', NoOcc (coreOf pe''.1) (pre ++ (t ++ e)) := by
      intro pe'' hmem
      obtain ⟨hs2, hl2, hx2⟩ := hshape pe'' (by simp [hmem])
      have hgn2 : coreOf pe''.1 ≠ [] := by
        intro h0
        rw [h0] at hl2
        simp at hl2
      rintro ⟨a, b, hab⟩
      rcases occSplit hab with ⟨b', hb'⟩ | ⟨a', ha', haa⟩ | ⟨g₁, g₂, hsp, h1, h2, hx, hy⟩
      · exact hpre pe'' (by simp [hmem]) ⟨a, b', hb'⟩
      · rcases occSplit ha' with ⟨b'', hb''⟩ | ⟨a'', ha'', haa2⟩ |
          ⟨g₁, g₂, hsp, h1, h2, hx, hy⟩
        · exact hts pe'' (by simp [hmem]) t (by simp) ⟨a', b'', hb''⟩
        · exact hes pe'' (by simp [hmem]) (p, e) (by simp) ⟨a'', b, ha''⟩
        · exact killRight hsp h2 hy hx2 (fun c hc => by
            rw [entity_head? hEnt] at hc
            rw [← Option.some_inj.mp hc]
            decide)
      · exact killLeft hsp h1 hx hx2 hguard
    have hguard2 : ∀ c, (pre ++ (t ++ e)).getLast? = some c → isHexLower c = false := by
      intro c hc
      have hen : e ≠ [] := entity_ne_nil hEnt
      rw [show pre ++ (t ++ e) = (pre ++ t) ++ e by simp [List.append_assoc],
        getLast?_append_right hen, entity_getLast? hEnt] at hc
      rw [← Option.some_inj.mp hc]
      decide
    simp only [List.foldl_cons]
    rw [show pre ++ interleave (t :: ts') (((p, e) :: pes').map Prod.fst) =
        pre ++ (t ++ (p ++ interleave ts' (pes'.map Prod.fst))) by rw [hSform]]
    rw [hrepl]
    rw [show pre ++ (t ++ (e ++ interleave ts' (pes'.map Prod.fst))) =
        (pre ++ (t ++ e)) ++ interleave ts' (pes'.map Prod.fst) by
      simp [List.append_assoc]]
    rw [ih (pre ++ (t ++ e)) ts' hplen
      (fun q hq => hshape q (by simp [hq]))
      (fun q hq => hent q (by simp [hq]))
      ((List.pairwise_cons.mp hdist).2)
      (fun q hq u hu => hts q (by simp [hq]) u (by simp [hu]))
      (fun q hq q' hq' => hes q (by simp [hq]) q' (by simp [hq']))
      hpre2 hguard2]
    rw [hSform2]
    simp [List.append_assoc]

/-- A gap of an alternation is a contiguous substring of it. -/
theorem interleave_sub_left : ∀ (ts xs : List (List Char)) (t : List Char), t ∈ ts →
    ∃ a b, interleave ts xs = a ++ t ++ b := by
  intro ts
  induction ts with
  | nil => intro xs t ht; simp at ht
  | cons t0 ts' ih =>
    intro xs t ht
    rcases List.mem_cons.mp ht with h | h
    · subst h
      rcases xs with _ | ⟨x, xs'⟩
      · exact ⟨[], interleave ts' [], by simp [interleave]⟩
      · exact ⟨[], x ++ interleave ts' xs', by simp [interleave, List.append_assoc]⟩
    · rcases xs with _ | ⟨x, xs'⟩
      · obtain ⟨a, b, hab⟩ := ih [] t h
        exact ⟨t0 ++ a, b, by simp [interleave, hab, List.append_assoc]⟩
      · obtain ⟨a, b, hab⟩ := ih xs' t h
        exact ⟨t0 ++ x ++ a, b, by simp [interleave, hab, List.append_assoc]⟩

/-- A replaced piece of an alternation with one more gap than pieces is
a contiguous substring of it. -/
theorem interleave_sub_right : ∀ (xs ts : List (List Char)),
    ts.length = xs.length + 1 → ∀ x ∈ xs, ∃ a b, interleave ts xs = a ++ x ++ b := by
  intro xs
  induction xs with
  | nil => intro ts _ x hx; simp at hx
  | cons x0 xs' ih =>
    intro ts hlen x hx
    rcases ts with _ | ⟨t, ts'⟩
    · simp at hlen
    rcases List.mem_cons.mp hx with h | h
    · subst h
      exact ⟨t, interleave ts' xs', by simp [interleave, List.append_assoc]⟩
    · obtain ⟨a, b, hab⟩ := ih ts' (by simpa using hlen) x h
      exact ⟨t ++ x0 ++ a, b, by simp [interleave, hab, List.append_assoc]⟩

/-- Non-occurrence transfers to contiguous substrings. -/
theorem noOcc_of_sub {g s t : List Char} (h : ∃ a b, s = a ++ t ++ b)
    (hno : NoOcc g s) : NoOcc g t := by
  rintro ⟨a', b', hab⟩
  obtain ⟨a, b, hs⟩ := h
  exact hno ⟨a ++ a', b' ++ b, by rw [hs, hab]; simp [List.append_assoc]⟩

/-- Distinct hex cores under the fixed affixes give distinct
placeholders, and conversely. -/
theorem placeholder_inj_core (hex : Nat → List Char) (i j : Nat)
    (h : placeholder hex i = placeholder hex j) : hex i = hex j := by
  rw [placeholder_eq, placeholder_eq] at h
  exact List.append_cancel_left (List.append_cancel_right h)

/-- `NoOcc` via the decidable substring relation. -/
theorem noOcc_iff (g s : List Char) : NoOcc g s ↔ ¬ g <:+: s := by
  constructor
  · rintro hno ⟨a, b, hab⟩
    exact hno ⟨a, b, hab.symm⟩
  · rintro hni ⟨a, b, hab⟩
    exact hni ⟨a, b, hab.symm⟩

/-- Pairwise on a mapped list, pulled back to the list. -/
theorem pairwise_of_map {α β : Type} (f : α → β) (R : β → β → Prop) :
    ∀ l : List α, (l.map f).Pairwise R → l.Pairwise (fun a b => R (f a) (f b)) := by
  intro l
  induction l with
  | nil => intro _; exact List.Pairwise.nil
  | cons a l2 ih =>
    intro h
    rw [List.map_cons, List.pairwise_cons] at h
    exact List.Pairwise.cons (fun b hb => h.1 (f b) (List.mem_map_of_mem f hb)) (ih h.2)

/-- C3: the Entity Guard round-trips — restoring the protected text with
the placeholder map produced by `protect` yields the original text
byte-for-byte.  The hypotheses are the spec's high-entropy invariant on
the generated placeholder cores: each is a 32-character lowercase-hex
string, cores of distinct invocations differ (stated for the indices a
run can use), and no core occurs as a substring of the original text —
in particular no placeholder token occurs in the original text. -/
theorem c3_entity_round_trip (hex : Nat → List Char) (text : List Char)
    (hlen32 : ∀ i, (hex i).length = 32)
    (hhexy : ∀ i, ∀ c ∈ hex i, isHexLower c = true)
    (hinj : ∀ i j, i ≤ text.length → j ≤ text.length → hex i = hex j → i = j)
    (hfresh : ∀ i, i ≤ text.length → NoOcc (hex i) text) :
    restore (protect hex text).2 (protect hex text).1 = text := by
  obtain ⟨ts, h1, h2, h3, h4, h5, h6⟩ :=
    protectAux_spec hex (text.length + 1) 0 text (by omega)
  unfold protect restore
  have hmem : ∀ pe ∈ (protectAux hex (text.length + 1) 0 text).2,
      ∃ i, i < (protectAux hex (text.length + 1) 0 text).2.length ∧
        pe.1 = placeholder hex i := by
    intro pe hpe
    have hm : pe.1 ∈ (protectAux hex (text.length + 1) 0 text).2.map Prod.fst :=
      List.mem_map_of_mem _ hpe
    rw [h5] at hm
    obtain ⟨i, hi, hpi⟩ := List.mem_map.mp hm
    exact ⟨i, List.mem_range.mp hi, by rw [← hpi]; simp⟩
  have hcore : ∀ pe ∈ (protectAux hex (text.length + 1) 0 text).2,
      ∃ i, i < (protectAux hex (text.length + 1) 0 text).2.length ∧
        pe.1 = placeholder hex i ∧ coreOf pe.1 = hex i := by
    intro pe hpe
    obtain ⟨i, hilt, hpi⟩ := hmem pe hpe
    exact ⟨i, hilt, hpi, by rw [hpi, placeholder_eq, coreOf_eq (hlen32 i)]⟩
  have hshape : ∀ pe ∈ (protectAux hex (text.length + 1) 0 text).2,
      pe.1 = entLead ++ coreOf pe.1 ++ undTail ∧ (coreOf pe.1).length = 32 ∧
        (∀ c ∈ coreOf pe.1, isHexLower c = true) := by
    intro pe hpe
    obtain ⟨i, hilt, hpi, hci⟩ := hcore pe hpe
    refine ⟨?_, by rw [hci]; exact hlen32 i, by rw [hci]; exact hhexy i⟩
    rw [hci, hpi, placeholder_eq]
  have hdist : List.Pairwise (fun a b => coreOf a.1 ≠ coreOf b.1)
      (protectAux hex (text.length + 1) 0 text).2 := by
    have hp0 : List.Pairwise (fun i j => hex i ≠ hex j)
        (List.range (protectAux hex (text.length + 1) 0 text).2.length) := by
      refine List.Pairwise.imp_of_mem ?_ (List.pairwise_lt_range _)
      intro i j hi hj hlt hEq
      have hi2 : i ≤ text.length := by
        have := List.mem_range.mp hi
        omega
      have hj2 : j ≤ text.length := by
        have := List.mem_range.mp hj
        omega
      exact absurd (hinj i j hi2 hj2 hEq) (Nat.ne_of_lt hlt)
    have hp1 : List.Pairwise (fun x y => coreOf x ≠ coreOf y)
        ((protectAux hex (text.length + 1) 0 text).2.map Prod.fst) := by
      rw [h5]
      refine List.Pairwise.map _ ?_ hp0
      intro i j hne hEq
      rw [show (0 : Nat) + i = i by omega, show (0 : Nat) + j = j by omega,
        placeholder_eq, placeholder_eq, coreOf_eq (hlen32 i), coreOf_eq (hlen32 j)] at hEq
      exact hne hEq
    exact pairwise_of_map Prod.fst (fun x y => coreOf x ≠ coreOf y) _ hp1
  have hts : ∀ pe ∈ (protectAux hex (text.length + 1) 0 text).2, ∀ u ∈ ts,
      NoOcc (coreOf pe.1) u := by
    intro pe hpe u hu
    obtain ⟨i, hilt, hpi, hci⟩ := hcore pe hpe
    rw [hci]
    refine noOcc_of_sub ?_ (hfresh i (by omega))
    rw [h2]
    exact interleave_sub_left ts _ u hu
  have hes : ∀ pe ∈ (protectAux hex (text.length + 1) 0 text).2,
      ∀ pe' ∈ (protectAux hex (text.length + 1) 0 text).2,
      NoOcc (coreOf pe.1) pe'.2 := by
    intro pe hpe pe' hpe'
    obtain ⟨i, hilt, hpi, hci⟩ := hcore pe hpe
    rw [hci]
    refine noOcc_of_sub ?_ (hfresh i (by omega))
    rw [h2]
    exact interleave_sub_right _ ts (by simpa using h1) pe'.2
      (List.mem_map_of_mem _ hpe')
  have hpre : ∀ pe ∈ (protectAux hex (text.length + 1) 0 text).2,
      NoOcc (coreOf pe.1) ([] : List Char) := by
    intro pe hpe
    obtain ⟨-, hl2, -⟩ := hshape pe hpe
    rintro ⟨a, b, hab⟩
    have hL := congrArg List.length hab
    simp only [List.length_append, List.length_nil] at hL
    omega
  have hguard : ∀ c, ([] : List Char).getLast? = some c → isHexLower c = false := by
    intro c hc
    simp at hc
  have hloop := restore_loop (protectAux hex (text.length + 1) 0 text).2 [] ts h1
    hshape h4 hdist hts hes hpre hguard
  simp only [List.nil_append] at hloop
  rw [h3, hloop, ← h2]

/-- All characters produced by the sample generator are lowercase hex. -/
theorem sampleHex_hex : ∀ (i : Nat), ∀ c ∈ sampleHex i, isHexLower c = true := by
  have hd : ∀ k, k < 16 → isHexLower (hexDigitChar k) = true := by decide
  intro i c hc
  simp only [sampleHex, List.mem_append, List.mem_replicate, List.mem_cons,
    List.not_mem_nil, or_false] at hc
  rcases hc with ⟨-, rfl⟩ | rfl | rfl | rfl | rfl
  · decide
  all_goals exact hd _ (Nat.mod_lt _ (by omega))

/-- The sample generator always yields 32 characters. -/
theorem sampleHex_len : ∀ (i : Nat), (sampleHex i).length = 32 := by
  intro i
  simp [sampleHex]

/-- C3 witness: a concrete chapter text with two entities round-trips
through protect/restore, and the placeholder map is nonempty (two
entities were really replaced). -/
theorem c3_entity_round_trip_witness :
    restore (protect sampleHex "a&lt;b &amp;c".toList).2
        (protect sampleHex "a&lt;b &amp;c".toList).1 = "a&lt;b &amp;c".toList ∧
    ((protect sampleHex "a&lt;b &amp;c".toList).2.map Prod.snd =
      ["&lt;".toList, "&amp;".toList]) :=
  ⟨c3_entity_round_trip sampleHex "a&lt;b &amp;c".toList
    sampleHex_len sampleHex_hex
    (fun i j hi hj h =>
      (by decide : ∀ i, i ≤ ("a&lt;b &amp;c".toList).length →
        ∀ j, j ≤ ("a&lt;b &amp;c".toList).length →
          sampleHex i = sampleHex j → i = j) i hi j hj h)
    (fun i hi => (noOcc_iff _ _).mpr
      ((by decide : ∀ i, i ≤ ("a&lt;b &amp;c".toList).length →
        ¬ sampleHex i <:+: "a&lt;b &amp;c".toList) i hi)),
   by decide⟩

/-- An entity match can only start at an ampersand. -/
theorem entityAt_amp {s e r : List Char} (h : entityAt s = some (e, r)) :
    s.head? = some '&' := by
  unfold entityAt at h
  split at h
  next rest => rfl
  next => simp at h

/-- An entity literal is an ampersand followed by ampersand-free text. -/
theorem entity_no_amp {e : List Char} (he : IsEntity e) :
    ∃ t, e = '&' :: t ∧ ∀ x ∈ t, x ≠ '&' := by
  obtain ⟨hash, w, hhash, hwne, hw, hee⟩ := he
  refine ⟨hash ++ w ++ [';'], hee, ?_⟩
  intro x hx
  rcases List.mem_append.mp hx with hx2 | hx2
  · rcases List.mem_append.mp hx2 with hx3 | hx3
    · rcases hhash with h | h <;> rw [h] at hx3
      · simp at hx3
      · simp at hx3
        rw [hx3]
        decide
    · intro hC
      subst hC
      have hww := hw '&' hx3
      rw [show isWordChar '&' = false by decide] at hww
      cases hww
  · simp at hx2
    rw [hx2]
    decide

/-- Completeness of the protect scan: wherever an entity match exists
in the input (at any split point), the matched text has a recorded
placeholder mapping — every entity occurrence is replaced. -/
theorem protectAux_complete (hex : Nat → List Char) :
    ∀ (fuel n : Nat) (s : List Char), s.length < fuel →
    ∀ a b e r, s = a ++ b → entityAt b = some (e, r) →
    ∃ p, (p, e) ∈ (protectAux hex fuel n s).2 := by
  intro fuel
  induction fuel with
  | zero => intro n s h; omega
  | succ f ih =>
    intro n s hlen a b e r hsplit hmatch
    cases he : entityAt s with
    | some er =>
      obtain ⟨e₀, r₀⟩ := er
      obtain ⟨hse, hent⟩ := entityAt_some he
      have henn : e₀ ≠ [] := entity_ne_nil hent
      have hel : 1 ≤ e₀.length := by
        rcases e₀ with _ | ⟨x, xs⟩
        · exact absurd rfl henn
        · simp
      have hsl : s.length = e₀.length + r₀.length := by rw [hse]; simp
      have hrl : r₀.length < f := by omega
      have hstep : (protectAux hex (f + 1) n s).2 =
          (placeholder hex n, e₀) :: (protectAux hex f (n + 1) r₀).2 := by
        simp [protectAux, he]
      rw [hstep]
      cases a with
      | nil =>
        simp only [List.nil_append] at hsplit
        subst hsplit
        rw [he] at hmatch
        obtain ⟨he2, -⟩ := Prod.mk.inj (Option.some_inj.mp hmatch)
        exact ⟨placeholder hex n, by rw [he2]; simp⟩
      | cons c a2 =>
        have hsplit2 : e₀ ++ r₀ = (c :: a2) ++ b := by rw [← hse, hsplit]
        rcases List.append_eq_append_iff.mp hsplit2 with ⟨k, hk1, hk2⟩ | ⟨k, hk1, hk2⟩
        · -- hk1 : c :: a2 = e₀ ++ k, hk2 : r₀ = k ++ b
          obtain ⟨p, hp⟩ := ih (n + 1) r₀ hrl k b e r hk2 hmatch
          exact ⟨p, by simp [hp]⟩
        · -- hk1 : e₀ = (c :: a2) ++ k, hk2 : b = k ++ r₀
          rcases k with _ | ⟨d, k2⟩
          · simp only [List.nil_append] at hk2
            obtain ⟨p, hp⟩ := ih (n + 1) r₀ hrl [] r₀ e r (by simp)
              (by rw [← hk2]; exact hmatch)
            exact ⟨p, by simp [hp]⟩
          · exfalso
            have hdamp : d = '&' := by
              have hh := entityAt_amp hmatch
              rw [hk2] at hh
              simpa using hh
            obtain ⟨t₀, ht₀, hnoamp⟩ := entity_no_amp hent
            rw [ht₀] at hk1
            have hc : c = '&' ∧ a2 ++ d :: k2 = t₀ := by
              have h9 := hk1
              simp only [List.cons_append] at h9
              obtain ⟨hA, hB⟩ := (List.cons.injEq _ _ _ _).mp h9
              exact ⟨hA.symm, hB.symm⟩
            have hdmem : d ∈ t₀ := by
              rw [← hc.2]
              simp
            exact hnoamp d hdmem hdamp
    | none =>
      cases s with
      | nil =>
        have hb : b = [] := by
          rcases List.append_eq_nil.mp hsplit.symm with ⟨-, hb⟩
          exact hb
        rw [hb] at hmatch
        simp [entityAt] at hmatch
      | cons c rest =>
        have hstep : (protectAux hex (f + 1) n (c :: rest)).2 =
            (protectAux hex f n rest).2 := by
          simp [protectAux, he]
        rw [hstep]
        cases a with
        | nil =>
          simp only [List.nil_append] at hsplit
          rw [← hsplit, he] at hmatch
          cases hmatch
        | cons c2 a2 =>
          have hcc : c = c2 ∧ rest = a2 ++ b := by
            simp only [List.cons_append] at hsplit
            exact ⟨((List.cons.injEq _ _ _ _).mp hsplit).1,
              ((List.cons.injEq _ _ _ _).mp hsplit).2⟩
          exact ih n rest (by simp at hlen; omega) a2 b e r hcc.2 hmatch

/-- C9 amended: `protect` replaces every occurrence of an entity with
its mandatory trailing semicolon (`&name;` or `&#digits;` — an
occurrence without the semicolon is not matched) by a freshly generated
placeholder and records the mapping: the input is the alternation of
untouched gaps with the recorded entity texts, the output replaces each
recorded entity by its placeholder in place, every recorded text has
entity shape, the placeholders are pairwise distinct (given distinct
generated cores), and every split of the input at which the entity
regex matches has its matched text recorded in the map. -/
theorem c9_amended (hex : Nat → List Char) (text : List Char)
    (hinj : ∀ i j, i ≤ text.length → j ≤ text.length → hex i = hex j → i = j) :
    ∃ ts : List (List Char),
      ts.length = (protect hex text).2.length + 1 ∧
      text = interleave ts ((protect hex text).2.map Prod.snd) ∧
      (protect hex text).1 = interleave ts ((protect hex text).2.map Prod.fst) ∧
      (∀ pe ∈ (protect hex text).2, IsEntity pe.2) ∧
      ((protect hex text).2.map Prod.fst).Pairwise (· ≠ ·) ∧
      (∀ a b e r, text = a ++ b → entityAt b = some (e, r) →
        ∃ p, (p, e) ∈ (protect hex text).2) := by
  obtain ⟨ts, h1, h2, h3, h4, h5, h6⟩ :=
    protectAux_spec hex (text.length + 1) 0 text (by omega)
  unfold protect
  refine ⟨ts, h1, h2, h3, h4, ?_, ?_⟩
  · rw [h5]
    have hp0 : List.Pairwise (fun i j => hex i ≠ hex j)
        (List.range (protectAux hex (text.length + 1) 0 text).2.length) := by
      refine List.Pairwise.imp_of_mem ?_ (List.pairwise_lt_range _)
      intro i j hi hj hlt hEq
      have hi2 : i ≤ text.length := by
        have := List.mem_range.mp hi
        omega
      have hj2 : j ≤ text.length := by
        have := List.mem_range.mp hj
        omega
      exact absurd (hinj i j hi2 hj2 hEq) (Nat.ne_of_lt hlt)
    refine List.Pairwise.map _ ?_ hp0
    intro i j hne hEq
    refine hne (placeholder_inj_core hex i j ?_)
    simpa using hEq
  · intro a b e r hsplit hmatch
    exact protectAux_complete hex (text.length + 1) 0 text (by omega) a b e r hsplit hmatch

/-- C9 amended witness: on a concrete text holding a named and a
numeric entity, the recorded entity texts are exactly those two
occurrences. -/
theorem c9_amended_witness :
    (∃ ts : List (List Char),
      ts.length = (protect sampleHex "x&lt;&#160;y&amp".toList).2.length + 1 ∧
      "x&lt;&#160;y&amp".toList =
        interleave ts ((protect sampleHex "x&lt;&#160;y&amp".toList).2.map Prod.snd) ∧
      (protect sampleHex "x&lt;&#160;y&amp".toList).1 =
        interleave ts ((protect sampleHex "x&lt;&#160;y&amp".toList).2.map Prod.fst) ∧
      (∀ pe ∈ (protect sampleHex "x&lt;&#160;y&amp".toList).2, IsEntity pe.2) ∧
      ((protect sampleHex "x&lt;&#160;y&amp".toList).2.map Prod.fst).Pairwise (· ≠ ·) ∧
      (∀ a b e r, "x&lt;&#160;y&amp".toList = a ++ b → entityAt b = some (e, r) →
        ∃ p, (p, e) ∈ (protect sampleHex "x&lt;&#160;y&amp".toList).2)) ∧
    ((protect sampleHex "x&lt;&#160;y&amp".toList).2.map Prod.snd =
      ["&lt;".toList, "&#160;".toList]) :=
  ⟨c9_amended sampleHex "x&lt;&#160;y&amp".toList
    (fun i j hi hj h =>
      (by decide : ∀ i, i ≤ ("x&lt;&#160;y&amp".toList).length →
        ∀ j, j ≤ ("x&lt;&#160;y&amp".toList).length →
          sampleHex i = sampleHex j → i = j) i hi j hj h),
   by decide⟩

/-- C5 amended witness: on a node whose single linked match has a
single-space separator the rewriter's fragments spell the node text
exactly. -/
theorem c5_amended_witness :
    textOf (processNode
        (buildIndex "bib.xhtml".toList [⟨"b1".toList, "Smith, J. (1999).".toList⟩])
        ⟨["p"], "see Smith 1999, and Day 2000.".toList⟩) =
      "see Smith 1999, and Day 2000.".toList :=
  c5_amended _ _ (by decide)

end BibLinks
